import Mathlib

/-!
# Verification of `fetch_data.py` (coinbase-premium)

Shallow embedding of the pure core of the script: the premium calculator
`calculate_premium` and the history merger `update_premium_history`.
Prices and premium values are modelled as rationals; calendar days as
strings (the script keys everything by `"YYYY-MM-DD"` strings, whose
lexicographic order agrees with chronological order).
-/

set_option maxRecDepth 4000

namespace CoinbasePremium

/-- Round-half-to-even of a rational to the nearest integer, the tie rule
Python's built-in `round` uses. -/
def round_half_even (x : ℚ) : ℤ :=
  let f : ℤ := ⌊x⌋
  if x - f < 1/2 then f
  else if 1/2 < x - f then f + 1
  else if 2 ∣ f then f else f + 1

/-- `round(x, 4)` from Python: round to 4 decimal places, ties to even. -/
def round4 (x : ℚ) : ℚ := (round_half_even (x * 10000) : ℚ) / 10000

/-- Embedding of `calculate_premium(coinbase_price, binance_price)`
(src/fetch_data.py, lines 105-119).  `None` prices are `Option.none`. -/
def calculate_premium (coinbase_price binance_price : Option ℚ) : Option ℚ :=
  match coinbase_price, binance_price with
  | none, _ => none
  | _, none => none
  | some a, some b =>
    if b = 0 then none
    else some (round4 ((a - b) / b * 100))

/-- The prior persisted document, as far as `update_premium_history` looks
at it: the two optional keys `premium_dates` and `premium_index`
(`Option.none` models an absent key). -/
structure ExistingData where
  premium_dates : Option (List String)
  premium_index : Option (List ℚ)

/-- Step 1 of `update_premium_history` (lines 128-133): start from the
prior parallel arrays when both keys are present, else start fresh. -/
def startHistory (existing_data : Option ExistingData) :
    List String × List ℚ :=
  match existing_data with
  | some e =>
    match e.premium_dates, e.premium_index with
    | some ds, some vs => (ds, vs)
    | _, _ => ([], [])
  | none => ([], [])

/-- Python's `list.index`: the index of the first occurrence of `a` in the
list (the script only uses it on lists containing `a`). -/
def listIndex (a : String) : List String → Nat
  | [] => 0
  | b :: t => if b = a then 0 else listIndex a t + 1

/-- Steps 2-3 of `update_premium_history` (lines 136-145): skip a `None`
premium; otherwise replace the value at the first index of `today` in the
date array (`premium_dates.index(today)`), or append to both arrays. -/
def addToday (today : String) (today_premium : Option ℚ)
    (h : List String × List ℚ) : List String × List ℚ :=
  match today_premium with
  | none => h
  | some v =>
    if today ∈ h.1 then
      (h.1, h.2.set (listIndex today h.1) v)
    else
      (h.1 ++ [today], h.2 ++ [v])

/-- Step 4 of `update_premium_history` (lines 147-150): when the date
array is longer than 365, keep the last 365 entries of both arrays
(`premium_dates[-365:]`, `premium_values[-365:]`). -/
def truncate365 (h : List String × List ℚ) : List String × List ℚ :=
  if h.1.length > 365 then
    (h.1.drop (h.1.length - 365), h.2.drop (h.2.length - 365))
  else h

/-- Embedding of `update_premium_history(existing_data, today_premium)`
(src/fetch_data.py, lines 122-152).  The script reads `today` from the
system clock; here it is an explicit parameter. -/
def update_premium_history (existing_data : Option ExistingData)
    (today : String) (today_premium : Option ℚ) : List String × List ℚ :=
  truncate365 (addToday today today_premium (startHistory existing_data))

example : calculate_premium (some 105) (some 100) = some 5 := by
  norm_num [calculate_premium, round4, round_half_even]

example :
    update_premium_history
      (some ⟨some ["2024-01-01"], some [(1:ℚ)/2]⟩) "2024-01-02" (some 1) =
      (["2024-01-01", "2024-01-02"], [(1:ℚ)/2, 1]) := by
  simp +decide [update_premium_history, startHistory, addToday, truncate365]

/-! ### Helper lemmas shared by the claim theorems -/

theorem startHistory_some (ds : List String) (vs : List ℚ) :
    startHistory (some ⟨some ds, some vs⟩) = (ds, vs) := rfl

theorem addToday_none (today : String) (p : List String × List ℚ) :
    addToday today none p = p := rfl

theorem addToday_of_mem {today : String} {p : List String × List ℚ} (v : ℚ)
    (h : today ∈ p.1) :
    addToday today (some v) p = (p.1, p.2.set (listIndex today p.1) v) := by
  simp [addToday, h]

theorem addToday_of_not_mem {today : String} {p : List String × List ℚ}
    (v : ℚ) (h : today ∉ p.1) :
    addToday today (some v) p = (p.1 ++ [today], p.2 ++ [v]) := by
  simp [addToday, h]

theorem truncate365_of_le {p : List String × List ℚ} (h : p.1.length ≤ 365) :
    truncate365 p = p := by
  unfold truncate365
  rw [if_neg (by omega)]

theorem truncate365_of_gt {p : List String × List ℚ} (h : 365 < p.1.length) :
    truncate365 p =
      (p.1.drop (p.1.length - 365), p.2.drop (p.2.length - 365)) := by
  unfold truncate365
  rw [if_pos h]

/-- C3: merging a `None` premium into a cap-respecting history returns it
unchanged: nothing appended, nothing replaced, nothing truncated. -/
theorem merge_none_id (ds : List String) (vs : List ℚ) (d : String)
    (hcap : ds.length ≤ 365) :
    update_premium_history (some ⟨some ds, some vs⟩) d none = (ds, vs) := by
  unfold update_premium_history
  rw [startHistory_some, addToday_none, truncate365_of_le hcap]

theorem merge_none_id_witness :
    update_premium_history (some ⟨some ["2024-01-01"], some [(1:ℚ)/2]⟩)
      "2024-01-02" none = (["2024-01-01"], [(1:ℚ)/2]) :=
  merge_none_id _ _ _ (by decide)

/-- C9: the 365-cap truncation runs even on a `None` premium: a prior
history longer than 365 comes back truncated to its most recent 365
entries, not unchanged. -/
theorem merge_none_truncates (ds : List String) (vs : List ℚ) (d : String)
    (hlong : 365 < ds.length) :
    update_premium_history (some ⟨some ds, some vs⟩) d none =
      (ds.drop (ds.length - 365), vs.drop (vs.length - 365)) ∧
    (update_premium_history (some ⟨some ds, some vs⟩) d none).1.length =
      365 ∧
    update_premium_history (some ⟨some ds, some vs⟩) d none ≠ (ds, vs) := by
  have h1 : update_premium_history (some ⟨some ds, some vs⟩) d none =
      (ds.drop (ds.length - 365), vs.drop (vs.length - 365)) := by
    unfold update_premium_history
    rw [startHistory_some, addToday_none, truncate365_of_gt hlong]
  refine ⟨h1, ?_, ?_⟩
  · rw [h1]
    simp only [List.length_drop]
    omega
  · rw [h1]
    intro hEq
    have hlen := congrArg (fun p : List String × List ℚ => p.1.length) hEq
    simp only [List.length_drop] at hlen
    omega

theorem merge_none_truncates_witness :
    (update_premium_history
      (some ⟨some (List.replicate 366 "2024-01-01"),
             some (List.replicate 366 (0:ℚ))⟩) "2024-01-02" none).1.length =
      365 :=
  (merge_none_truncates _ _ _ (by simp)).2.1

/-- C8: a missing or key-deficient prior document starts the history
fresh, so merging one non-`None` premium yields the one-point history. -/
theorem merge_fresh_start (ed : Option ExistingData)
    (h : ed = none ∨
      ∃ e, ed = some e ∧
        (e.premium_dates = none ∨ e.premium_index = none))
    (d : String) (v : ℚ) :
    update_premium_history ed d (some v) = ([d], [v]) := by
  have hstart : startHistory ed = ([], []) := by
    rcases h with rfl | ⟨e, rfl, he⟩
    · rfl
    · rcases e with ⟨pd, pv⟩
      rcases he with h | h <;> cases pd <;> cases pv <;>
        simp_all [startHistory]
  unfold update_premium_history
  rw [hstart]
  have hadd : addToday d (some v) ([], []) = ([d], [v]) := by
    simp [addToday]
  rw [hadd, truncate365_of_le (by simp)]

theorem merge_fresh_start_witness :
    update_premium_history none "2024-01-02" (some 1) =
      (["2024-01-02"], [1]) :=
  merge_fresh_start none (Or.inl rfl) _ _

theorem listIndex_lt_length {a : String} {l : List String} (h : a ∈ l) :
    listIndex a l < l.length := by
  induction l with
  | nil => simp at h
  | cons b t ih =>
    by_cases hb : b = a
    · simp [listIndex, hb]
    · have ht : a ∈ t := by
        rcases List.mem_cons.mp h with h' | h'
        · exact absurd h'.symm hb
        · exact h'
      simp only [listIndex, if_neg hb, List.length_cons]
      exact Nat.succ_lt_succ (ih ht)

theorem getElem?_listIndex {a : String} {l : List String} (h : a ∈ l) :
    l[listIndex a l]? = some a := by
  induction l with
  | nil => simp at h
  | cons b t ih =>
    by_cases hb : b = a
    · simp [listIndex, hb]
    · have ht : a ∈ t := by
        rcases List.mem_cons.mp h with h' | h'
        · exact absurd h'.symm hb
        · exact h'
      simp only [listIndex, if_neg hb, List.getElem?_cons_succ]
      exact ih ht

theorem getElem?_ne_of_lt_listIndex {a : String} {l : List String} {j : ℕ}
    (h : j < listIndex a l) : l[j]? ≠ some a := by
  induction l generalizing j with
  | nil => simp
  | cons b t ih =>
    by_cases hb : b = a
    · simp [listIndex, hb] at h
    · simp only [listIndex, if_neg hb] at h
      cases j with
      | zero => simpa using hb
      | succ j =>
        simp only [List.getElem?_cons_succ]
        exact ih (by omega)

/-- C1: merging a fresh day (not in the prior dates) appends it: the
result has length `min (len + 1) 365`, and when no truncation occurs the
result is the prior history with `(d, v)` appended, ending in `(d, v)`. -/
theorem merge_append (ds : List String) (vs : List ℚ)
    (hlen : ds.length = vs.length) (_hnd : ds.Nodup)
    (d : String) (v : ℚ) (hd : d ∉ ds) :
    (update_premium_history (some ⟨some ds, some vs⟩) d (some v)).1.length =
      min (ds.length + 1) 365 ∧
    (update_premium_history (some ⟨some ds, some vs⟩) d (some v)).2.length =
      min (vs.length + 1) 365 ∧
    (ds.length + 1 ≤ 365 →
      update_premium_history (some ⟨some ds, some vs⟩) d (some v) =
        (ds ++ [d], vs ++ [v]) ∧
      (update_premium_history
        (some ⟨some ds, some vs⟩) d (some v)).1.getLast? = some d ∧
      (update_premium_history
        (some ⟨some ds, some vs⟩) d (some v)).2.getLast? = some v) := by
  have hu : update_premium_history (some ⟨some ds, some vs⟩) d (some v) =
      truncate365 (ds ++ [d], vs ++ [v]) := by
    unfold update_premium_history
    rw [startHistory_some, addToday_of_not_mem v hd]
  by_cases hle : ds.length + 1 ≤ 365
  · have htr : truncate365 (ds ++ [d], vs ++ [v]) = (ds ++ [d], vs ++ [v]) :=
      truncate365_of_le (by simp; omega)
    rw [hu, htr]
    refine ⟨by simp; omega, by simp; omega, fun _ => ⟨rfl, ?_, ?_⟩⟩
    · exact List.getLast?_concat ds
    · exact List.getLast?_concat vs
  · have htr := truncate365_of_gt (p := (ds ++ [d], vs ++ [v]))
      (by simp; omega)
    rw [hu, htr]
    refine ⟨?_, ?_, fun hc => absurd hc hle⟩
    · simp only [List.length_drop, List.length_append, List.length_singleton]
      omega
    · simp only [List.length_drop, List.length_append, List.length_singleton]
      omega

theorem merge_append_witness :
    (["2024-01-01"] : List String).length = ([(1:ℚ)/2] : List ℚ).length ∧
    (update_premium_history
      (some ⟨some ["2024-01-01"], some [(1:ℚ)/2]⟩) "2024-01-02"
      (some 1)).1.length = min 2 365 :=
  ⟨rfl, by
    have h := merge_append ["2024-01-01"] [(1:ℚ)/2] rfl
      (by simp) "2024-01-02" 1 (by decide)
    simpa using h.1⟩

/-- C2: merging a day already present replaces the value at that day's
(first) index, keeps both lengths, and leaves every other entry — dates
and values — unchanged. -/
theorem merge_replace (ds : List String) (vs : List ℚ)
    (hlen : ds.length = vs.length) (hcap : ds.length ≤ 365)
    (d : String) (v : ℚ) (hd : d ∈ ds) :
    update_premium_history (some ⟨some ds, some vs⟩) d (some v) =
      (ds, vs.set (listIndex d ds) v) ∧
    (update_premium_history (some ⟨some ds, some vs⟩) d (some v)).1.length =
      ds.length ∧
    (update_premium_history (some ⟨some ds, some vs⟩) d (some v)).2.length =
      vs.length ∧
    (update_premium_history
      (some ⟨some ds, some vs⟩) d (some v)).2[listIndex d ds]? = some v ∧
    ∀ j : ℕ, j ≠ listIndex d ds →
      (update_premium_history
        (some ⟨some ds, some vs⟩) d (some v)).2[j]? = vs[j]? := by
  have hu : update_premium_history (some ⟨some ds, some vs⟩) d (some v) =
      (ds, vs.set (listIndex d ds) v) := by
    unfold update_premium_history
    rw [startHistory_some, addToday_of_mem v hd,
      truncate365_of_le (by simpa using hcap)]
  have hidx : listIndex d ds < vs.length := hlen ▸ listIndex_lt_length hd
  refine ⟨hu, by rw [hu], by rw [hu]; simp, ?_, ?_⟩
  · rw [hu]
    exact List.getElem?_set_eq_of_lt v hidx
  · intro j hj
    rw [hu]
    exact List.getElem?_set_ne (Ne.symm hj)

theorem merge_replace_witness :
    update_premium_history
      (some ⟨some ["2024-01-01"], some [(1:ℚ)/2]⟩) "2024-01-01" (some 0) =
      (["2024-01-01"], List.set [(1:ℚ)/2] (listIndex "2024-01-01" ["2024-01-01"]) 0) :=
  (merge_replace _ _ rfl (by simp) _ 0 (by decide)).1

/-- C6: `calculate_premium` returns `None` exactly when an input is
`None` or the binance price is zero; otherwise it returns a number. -/
theorem calculate_premium_none_iff (a b : Option ℚ) :
    calculate_premium a b = none ↔ a = none ∨ b = none ∨ b = some 0 := by
  rcases a with _ | a <;> rcases b with _ | b <;> simp [calculate_premium]

/-- C7: away from the guards, `calculate_premium` is the premium formula
`((A - B) / B) * 100` rounded to 4 decimals; in particular 105 vs 100
gives 5.0 and 95 vs 100 gives -5.0. -/
theorem calculate_premium_formula :
    (∀ a b : ℚ, b ≠ 0 →
      calculate_premium (some a) (some b) =
        some (round4 ((a - b) / b * 100))) ∧
    calculate_premium (some 105) (some 100) = some 5 ∧
    calculate_premium (some 95) (some 100) = some (-5) := by
  refine ⟨fun a b hb => by simp [calculate_premium, hb], ?_, ?_⟩
  · norm_num [calculate_premium, round4, round_half_even]
  · norm_num [calculate_premium, round4, round_half_even]

theorem calculate_premium_formula_witness :
    calculate_premium (some 3) (some 2) =
      some (round4 ((3 - 2) / 2 * 100)) :=
  calculate_premium_formula.1 3 2 (by norm_num)

theorem addToday_length_eq {today : String} {prem : Option ℚ}
    {p : List String × List ℚ} (h : p.1.length = p.2.length) :
    (addToday today prem p).1.length = (addToday today prem p).2.length := by
  cases prem with
  | none => exact h
  | some v =>
    by_cases hm : today ∈ p.1
    · rw [addToday_of_mem v hm]
      simp [h]
    · rw [addToday_of_not_mem v hm]
      simp [h]

theorem truncate365_length {p : List String × List ℚ} :
    (truncate365 p).1.length = min p.1.length 365 := by
  by_cases h : 365 < p.1.length
  · rw [truncate365_of_gt h]
    simp only [List.length_drop]
    omega
  · rw [truncate365_of_le (by omega)]
    omega

theorem truncate365_length_eq {p : List String × List ℚ}
    (h : p.1.length = p.2.length) :
    (truncate365 p).1.length = (truncate365 p).2.length := by
  by_cases hgt : 365 < p.1.length
  · rw [truncate365_of_gt hgt]
    simp only [List.length_drop]
    omega
  · rw [truncate365_of_le (by omega)]
    exact h

theorem truncate365_pairwise {p : List String × List ℚ}
    (h : p.1.Pairwise (· < ·)) :
    (truncate365 p).1.Pairwise (· < ·) := by
  by_cases hgt : 365 < p.1.length
  · rw [truncate365_of_gt hgt]
    exact h.sublist (List.drop_sublist _ _)
  · rw [truncate365_of_le (by omega)]
    exact h

/-- C5: one merge preserves the `PremiumHistory` invariant: equal-length
parallel arrays with strictly increasing (hence unique) dates no later
than today go to equal-length arrays with strictly increasing unique
dates, capped at 365. -/
theorem merge_preserves_invariant (ds : List String) (vs : List ℚ)
    (today : String) (prem : Option ℚ)
    (hlen : ds.length = vs.length)
    (hsorted : ds.Pairwise (· < ·))
    (hle : ∀ x ∈ ds, x ≤ today) :
    (update_premium_history (some ⟨some ds, some vs⟩) today prem).1.length =
      (update_premium_history
        (some ⟨some ds, some vs⟩) today prem).2.length ∧
    (update_premium_history
      (some ⟨some ds, some vs⟩) today prem).1.Pairwise (· < ·) ∧
    (update_premium_history (some ⟨some ds, some vs⟩) today prem).1.Nodup ∧
    (update_premium_history (some ⟨some ds, some vs⟩) today prem).1.length ≤
      365 := by
  have hu : update_premium_history (some ⟨some ds, some vs⟩) today prem =
      truncate365 (addToday today prem (ds, vs)) := by
    unfold update_premium_history
    rw [startHistory_some]
  have hadd_len : (addToday today prem (ds, vs)).1.length =
      (addToday today prem (ds, vs)).2.length := addToday_length_eq hlen
  have hadd_pw : (addToday today prem (ds, vs)).1.Pairwise (· < ·) := by
    cases prem with
    | none => exact hsorted
    | some v =>
      by_cases hm : today ∈ ds
      · rw [addToday_of_mem v hm]
        exact hsorted
      · rw [addToday_of_not_mem v hm]
        refine List.pairwise_append.mpr
          ⟨hsorted, List.pairwise_singleton _ _, ?_⟩
        intro x hx y hy
        simp only [List.mem_singleton] at hy
        subst hy
        exact lt_of_le_of_ne (hle x hx) fun hEq => hm (hEq ▸ hx)
  rw [hu]
  refine ⟨truncate365_length_eq hadd_len, truncate365_pairwise hadd_pw,
    (truncate365_pairwise hadd_pw).imp fun hab => ne_of_lt hab, ?_⟩
  rw [truncate365_length]
  omega

theorem merge_preserves_invariant_witness :
    (update_premium_history (some ⟨some ["2024-01-01"], some [(1:ℚ)/2]⟩)
      "2024-01-01" (some 0)).1.length ≤ 365 :=
  (merge_preserves_invariant ["2024-01-01"] [(1:ℚ)/2] "2024-01-01" (some 0)
    rfl (by simp) (by simp)).2.2.2

/-- One scheduled run feeding the merger: the prior pair is reloaded as
the persisted document and merged with that run's day and premium. -/
def mergeRun (p : List String × List ℚ) (op : String × Option ℚ) :
    List String × List ℚ :=
  update_premium_history (some ⟨some p.1, some p.2⟩) op.1 op.2

theorem mergeRun_eq (p : List String × List ℚ) (op : String × Option ℚ) :
    mergeRun p op = truncate365 (addToday op.1 op.2 p) := rfl

theorem foldl_mergeRun_bound (ops : List (String × Option ℚ)) :
    ∀ p : List String × List ℚ, p.1.length = p.2.length →
      (ops.foldl mergeRun p).1.length = (ops.foldl mergeRun p).2.length ∧
      (ops ≠ [] → (ops.foldl mergeRun p).1.length ≤ 365) := by
  induction ops with
  | nil =>
    intro p hp
    exact ⟨hp, fun h => absurd rfl h⟩
  | cons op rest ih =>
    intro p hp
    have hq_len : (mergeRun p op).1.length = (mergeRun p op).2.length := by
      rw [mergeRun_eq]
      exact truncate365_length_eq (addToday_length_eq hp)
    have hq365 : (mergeRun p op).1.length ≤ 365 := by
      rw [mergeRun_eq, truncate365_length]
      omega
    have hfold : (op :: rest).foldl mergeRun p =
        rest.foldl mergeRun (mergeRun p op) := rfl
    rw [hfold]
    rcases rest with _ | ⟨op2, rest2⟩
    · exact ⟨hq_len, fun _ => hq365⟩
    · have hrec := ih (mergeRun p op) hq_len
      exact ⟨hrec.1, fun _ => hrec.2 (by simp)⟩

/-- C4: any nonempty sequence of daily merges leaves both arrays within
the 365 cap, and a merge that would exceed the cap keeps exactly the most
recent 365 entries (a suffix: oldest dropped, relative order kept). -/
theorem cap_invariant :
    (∀ (ds : List String) (vs : List ℚ), ds.length = vs.length →
      ∀ ops : List (String × Option ℚ), ops ≠ [] →
        (ops.foldl mergeRun (ds, vs)).1.length ≤ 365 ∧
        (ops.foldl mergeRun (ds, vs)).2.length ≤ 365) ∧
    (∀ (ds : List String) (vs : List ℚ) (d : String) (v : ℚ),
      ds.length = vs.length → d ∉ ds → 365 ≤ ds.length →
        update_premium_history (some ⟨some ds, some vs⟩) d (some v) =
          ((ds ++ [d]).drop (ds.length + 1 - 365),
           (vs ++ [v]).drop (vs.length + 1 - 365))) := by
  constructor
  · intro ds vs hlen ops hne
    obtain ⟨heq, hb⟩ := foldl_mergeRun_bound ops (ds, vs) hlen
    exact ⟨hb hne, heq ▸ hb hne⟩
  · intro ds vs d v hlen hd hcap
    have hu : update_premium_history (some ⟨some ds, some vs⟩) d (some v) =
        truncate365 (ds ++ [d], vs ++ [v]) := by
      unfold update_premium_history
      rw [startHistory_some, addToday_of_not_mem v hd]
    rw [hu, truncate365_of_gt (by simp; omega)]
    simp [List.length_append]

theorem cap_invariant_witness :
    (List.foldl mergeRun (["2024-01-01"], [(1:ℚ)])
      [("2024-01-02", some 2)]).1.length ≤ 365 :=
  (cap_invariant.1 ["2024-01-01"] [1] rfl [("2024-01-02", some 2)]
    (by simp)).1

/-- C10: with today's date duplicated in the prior date array, the merge
writes the new value only at the first occurrence: the date array and
every value other than the first occurrence's — the later occurrences
included — come back unchanged. -/
theorem merge_duplicate_date (ds : List String) (vs : List ℚ)
    (today : String) (v : ℚ) (i j : ℕ)
    (hlen : ds.length = vs.length) (hcap : ds.length ≤ 365)
    (_hij : i < j) (hi : ds[i]? = some today) (hj : ds[j]? = some today) :
    update_premium_history (some ⟨some ds, some vs⟩) today (some v) =
      (ds, vs.set (listIndex today ds) v) ∧
    listIndex today ds ≤ i ∧
    ds[listIndex today ds]? = some today ∧
    (∀ k, k < listIndex today ds → ds[k]? ≠ some today) ∧
    (update_premium_history (some ⟨some ds, some vs⟩) today (some v)).1 =
      ds ∧
    (update_premium_history
      (some ⟨some ds, some vs⟩) today (some v)).1[j]? = some today ∧
    (update_premium_history
      (some ⟨some ds, some vs⟩) today (some v)).2[listIndex today ds]? =
      some v ∧
    ∀ k, k ≠ listIndex today ds →
      (update_premium_history
        (some ⟨some ds, some vs⟩) today (some v)).2[k]? = vs[k]? := by
  have hmem : today ∈ ds := List.getElem?_mem hi
  have hu : update_premium_history (some ⟨some ds, some vs⟩) today (some v) =
      (ds, vs.set (listIndex today ds) v) := by
    unfold update_premium_history
    rw [startHistory_some, addToday_of_mem v hmem,
      truncate365_of_le (by simpa using hcap)]
  have hfirst : listIndex today ds ≤ i := by
    by_contra hlt
    push_neg at hlt
    exact getElem?_ne_of_lt_listIndex hlt hi
  refine ⟨hu, hfirst, getElem?_listIndex hmem,
    fun k hk => getElem?_ne_of_lt_listIndex hk, by rw [hu], ?_, ?_, ?_⟩
  · rw [hu]
    exact hj
  · rw [hu]
    exact List.getElem?_set_eq_of_lt v (hlen ▸ listIndex_lt_length hmem)
  · intro k hk
    rw [hu]
    exact List.getElem?_set_ne (Ne.symm hk)

theorem merge_duplicate_date_witness :
    update_premium_history
      (some ⟨some ["2024-01-01", "2024-01-01"], some [(0:ℚ), 1]⟩)
      "2024-01-01" (some 5) =
      (["2024-01-01", "2024-01-01"],
        List.set [(0:ℚ), 1]
          (listIndex "2024-01-01" ["2024-01-01", "2024-01-01"]) 5) :=
  (merge_duplicate_date ["2024-01-01", "2024-01-01"] [(0:ℚ), 1]
    "2024-01-01" 5 0 1 rfl (by decide) (by decide) rfl rfl).1

end CoinbasePremium
